import Mathlib

/-!
Verification of the LCOFI frequent-itemset miner.

The development shallowly embeds the Python functions of the notebooks
(`generate_candidates`, `count_support`, `lcofi`, and the rule-derivation
step) as executable Lean definitions and proves the specified properties
about them.

Modelling conventions:
* an item is a `String`; an itemset (Python `frozenset`) is a `Finset String`;
* a Python dict mapping itemsets to counts is a `Finset (Itemset × Nat)`
  (dict equality is key-value-set equality, and in this code the value is a
  function of the key);
* the float threshold `min_support` is an exact rational `ℚ`;
* a Python `ZeroDivisionError` (raised by `count / len(transactions)` when
  the transaction list is empty and at least one candidate is iterated) is
  modelled by returning `none`;
* the unbounded `while` loop of `lcofi` is modelled with explicit fuel;
  `lcofi` supplies fuel that is proved sufficient (`lcofi_isSome`).
-/

namespace LCOFI

abbrev Itemset := Finset String

abbrev Level := Finset (Itemset × Nat)

/-- Number of transactions of which `S` is a subset: the value accumulated in
`support_counts[S]` by the scan loop of `count_support`. -/
def containCount (S : Itemset) (transactions : List Itemset) : Nat :=
  transactions.countP (fun t => decide (S ⊆ t))

/-- Embedding of `count_support(itemsets, transactions, min_support)`.
Returns `none` exactly when Python raises `ZeroDivisionError`: the final dict
comprehension divides by `len(transactions)` once per entry of
`support_counts`, so it faults iff `itemsets` is non-empty and
`transactions` is empty. -/
def count_support (itemsets : Finset Itemset) (transactions : List Itemset)
    (min_support : ℚ) : Option Level :=
  if itemsets.Nonempty ∧ transactions = [] then none
  else
    some ((itemsets.image (fun S => (S, containCount S transactions))).filter
      (fun p => min_support ≤ (p.2 : ℚ) / (transactions.length : ℚ)))

/-- The item universe `set(itertools.chain(*frequent_itemsets))`: all items
occurring in any itemset of the previous level, duplicates collapsed. -/
def itemUniverse (frequent_itemsets : Finset Itemset) : Finset String :=
  frequent_itemsets.sup id

/-- Embedding of `generate_candidates(frequent_itemsets, size)`:
`itertools.combinations` over the duplicate-free universe emits each
`size`-element subset exactly once (as a tuple of distinct items), and every
tuple is turned into a `frozenset` and collected into a set — i.e. the set of
all `size`-element subsets of the universe. -/
def generate_candidates (frequent_itemsets : Finset Itemset) (size : Nat) :
    Finset Itemset :=
  (itemUniverse frequent_itemsets).powersetCard size

/-- The reserved node-name prefix tested by `node.startswith("Transaction")`. -/
def transactionTag : String := "Transaction"

/-- The synthetic transaction-node label `f"Transaction_{i}"`. -/
def transactionLabel (i : Nat) : String := "Transaction_" ++ toString i

/-- The edges `G.add_edge(f"Transaction_{i}", item)` of the bipartite
incidence graph, one per (transaction, item) membership. -/
def graphEdges (transactions : List Itemset) : Finset (String × String) :=
  transactions.enum.foldr
    (fun p acc => p.2.image (fun item => (transactionLabel p.1, item)) ∪ acc) ∅

/-- The node set of the incidence graph: every endpoint of an edge
(networkx adds both endpoints of each edge as nodes). -/
def graphNodes (transactions : List Itemset) : Finset String :=
  (graphEdges transactions).image Prod.fst ∪
    (graphEdges transactions).image Prod.snd

/-- `G.degree[n]`: the number of edges incident to `n`. -/
def nodeDegree (transactions : List Itemset) (n : String) : Nat :=
  ((graphEdges transactions).filter (fun e => e.1 = n ∨ e.2 = n)).card

/-- Python `node.startswith("Transaction")`: the character sequence of
`transactionTag` is a prefix of the character sequence of `n`. -/
def startsWithTag (n : String) : Bool :=
  transactionTag.data.isPrefixOf n.data

/-- Embedding of the seed-universe line of `lcofi`:
`{frozenset([node]) for node in G if G.degree[node] > 0 and not
node.startswith("Transaction")}`. -/
def single_items (transactions : List Itemset) : Finset Itemset :=
  ((graphNodes transactions).filter
    (fun n => 0 < nodeDegree transactions n ∧
      startsWithTag n = false)).image (fun n => {n})

/-- The keys of a level dict, as passed to `generate_candidates`. -/
def levelKeys (lvl : Level) : Finset Itemset := lvl.image Prod.fst

/-- The set of distinct items occurring in at least one transaction. -/
def allItems (transactions : List Itemset) : Finset String :=
  transactions.foldr (fun t acc => t ∪ acc) ∅

/-- Embedding of the `while frequent_itemsets:` loop of `lcofi`: at state
`(k, cur, acc)` with `cur` the most recent level and `acc` the output list so
far, generate size-`k` candidates from `cur`, count their support, append the
resulting level when non-empty, and continue with `k+1`. `fuel` bounds the
number of iterations; `none` is fuel exhaustion or a propagated
`ZeroDivisionError`. -/
def lcofiAux (transactions : List Itemset) (min_support : ℚ) :
    Nat → Nat → Level → List Level → Option (List Level)
  | 0, _, _, _ => none
  | fuel + 1, k, cur, acc =>
    if cur = ∅ then some acc
    else
      match count_support (generate_candidates (levelKeys cur) k) transactions
          min_support with
      | none => none
      | some next =>
        lcofiAux transactions min_support fuel (k + 1) next
          (if next = ∅ then acc else acc ++ [next])

/-- Embedding of `lcofi(transactions, min_support)`: seed level 1 from the
incidence graph, put it (unconditionally) into the output list, then run the
level loop from `k = 2`. The supplied fuel is proved sufficient below. -/
def lcofi (transactions : List Itemset) (min_support : ℚ) :
    Option (List Level) :=
  match count_support (single_items transactions) transactions min_support with
  | none => none
  | some l1 =>
    lcofiAux transactions min_support ((allItems transactions).card + 2) 2 l1
      [l1]

/-! ### Support counting -/

theorem containCount_eq_filter_length (S : Itemset) (ts : List Itemset) :
    containCount S ts = (ts.filter (fun t => decide (S ⊆ t))).length := by
  simp [containCount, List.countP_eq_length_filter]

theorem count_support_ne_nil {itemsets : Finset Itemset} {ts : List Itemset}
    {ms : ℚ} (hts : ts ≠ []) :
    count_support itemsets ts ms =
      some ((itemsets.image (fun S => (S, containCount S ts))).filter
        (fun p => ms ≤ (p.2 : ℚ) / (ts.length : ℚ))) := by
  rw [count_support, if_neg]
  rintro ⟨-, h⟩
  exact hts h

theorem count_support_empty (ts : List Itemset) (ms : ℚ) :
    count_support ∅ ts ms = some ∅ := by
  rw [count_support, if_neg]
  · simp
  · rintro ⟨h, -⟩
    exact Finset.not_nonempty_empty h

theorem mem_of_count_support_eq_some {itemsets : Finset Itemset}
    {ts : List Itemset} {ms : ℚ} {m : Level}
    (h : count_support itemsets ts ms = some m) (S : Itemset) (c : Nat) :
    (S, c) ∈ m ↔
      S ∈ itemsets ∧ c = containCount S ts ∧
        ms ≤ (c : ℚ) / (ts.length : ℚ) := by
  rw [count_support] at h
  split_ifs at h with hc
  rw [← Option.some_inj.mp h]
  simp only [Finset.mem_filter, Finset.mem_image, Prod.mk.injEq]
  constructor
  · rintro ⟨⟨a, ha, rfl, rfl⟩, hle⟩
    exact ⟨ha, rfl, hle⟩
  · rintro ⟨hS, rfl, hle⟩
    exact ⟨⟨S, hS, rfl, rfl⟩, hle⟩

/-! ### Candidate generation -/

theorem mem_itemUniverse {P : Finset Itemset} {x : String} :
    x ∈ itemUniverse P ↔ ∃ I ∈ P, x ∈ I := by
  simp [itemUniverse, Finset.mem_sup]

theorem mem_generate_candidates {P : Finset Itemset} {k : Nat} {S : Itemset} :
    S ∈ generate_candidates P k ↔ S ⊆ itemUniverse P ∧ S.card = k := by
  unfold generate_candidates
  exact Finset.mem_powersetCard

theorem generate_candidates_card {P : Finset Itemset} {k : Nat} {S : Itemset}
    (h : S ∈ generate_candidates P k) : S.card = k :=
  (mem_generate_candidates.mp h).2

theorem generate_candidates_empty_of_card_lt {P : Finset Itemset} {k : Nat}
    (h : (itemUniverse P).card < k) : generate_candidates P k = ∅ := by
  ext S
  simp only [Finset.not_mem_empty, iff_false, mem_generate_candidates]
  rintro ⟨hsub, rfl⟩
  exact absurd (Finset.card_le_card hsub) (Nat.not_le_of_lt h)

/-! ### Incidence graph and the seed universe -/

theorem allItems_cons (t : Itemset) (ts : List Itemset) :
    allItems (t :: ts) = t ∪ allItems ts := rfl

theorem mem_allItems {ts : List Itemset} {x : String} :
    x ∈ allItems ts ↔ ∃ t ∈ ts, x ∈ t := by
  induction ts with
  | nil => simp [allItems]
  | cons t ts ih =>
    rw [allItems_cons, Finset.mem_union, ih]
    simp

theorem mem_foldr_union {α β : Type} [DecidableEq β] (f : α → Finset β)
    (l : List α) (x : β) :
    x ∈ l.foldr (fun a acc => f a ∪ acc) ∅ ↔ ∃ a ∈ l, x ∈ f a := by
  induction l with
  | nil => simp
  | cons a l ih => simp [Finset.mem_union, ih]

theorem mem_graphEdges {ts : List Itemset} {e : String × String} :
    e ∈ graphEdges ts ↔
      ∃ i t, ts[i]? = some t ∧ ∃ x ∈ t, e = (transactionLabel i, x) := by
  unfold graphEdges
  rw [mem_foldr_union]
  constructor
  · rintro ⟨⟨i, t⟩, hp, he⟩
    obtain ⟨x, hx, rfl⟩ := Finset.mem_image.mp he
    exact ⟨i, t, List.mk_mem_enum_iff_getElem?.mp hp, x, hx, rfl⟩
  · rintro ⟨i, t, hit, x, hx, rfl⟩
    exact ⟨(i, t), List.mk_mem_enum_iff_getElem?.mpr hit,
      Finset.mem_image.mpr ⟨x, hx, rfl⟩⟩

theorem mem_graphNodes {ts : List Itemset} {n : String} :
    n ∈ graphNodes ts ↔ ∃ e ∈ graphEdges ts, n = e.1 ∨ n = e.2 := by
  unfold graphNodes
  rw [Finset.mem_union]
  constructor
  · rintro (h | h)
    · obtain ⟨e, he, rfl⟩ := Finset.mem_image.mp h
      exact ⟨e, he, Or.inl rfl⟩
    · obtain ⟨e, he, rfl⟩ := Finset.mem_image.mp h
      exact ⟨e, he, Or.inr rfl⟩
  · rintro ⟨e, he, rfl | rfl⟩
    · exact Or.inl (Finset.mem_image.mpr ⟨e, he, rfl⟩)
    · exact Or.inr (Finset.mem_image.mpr ⟨e, he, rfl⟩)

theorem startsWithTag_transactionLabel (i : Nat) :
    startsWithTag (transactionLabel i) = true := by
  unfold startsWithTag transactionLabel
  rw [String.data_append, List.isPrefixOf_iff_prefix]
  refine List.IsPrefix.trans ?_ (List.prefix_append _ _)
  decide

theorem nodeDegree_pos_of_mem {ts : List Itemset} {e : String × String}
    {n : String} (he : e ∈ graphEdges ts) (hn : e.1 = n ∨ e.2 = n) :
    0 < nodeDegree ts n := by
  unfold nodeDegree
  exact Finset.card_pos.mpr ⟨e, Finset.mem_filter.mpr ⟨he, hn⟩⟩

/-- The seed universe is exactly the singletons over the occurring items whose
label does not start with the reserved `"Transaction"` prefix. -/
theorem single_items_eq (ts : List Itemset) :
    single_items ts =
      ((allItems ts).filter (fun n => startsWithTag n = false)).image
        (fun n => ({n} : Itemset)) := by
  ext S
  unfold single_items
  simp only [Finset.mem_image, Finset.mem_filter]
  constructor
  · rintro ⟨n, ⟨hn, _, htag⟩, rfl⟩
    refine ⟨n, ⟨?_, htag⟩, rfl⟩
    obtain ⟨e, he, hor⟩ := mem_graphNodes.mp hn
    obtain ⟨i, t, hit, x, hx, rfl⟩ := mem_graphEdges.mp he
    rcases hor with rfl | rfl
    · rw [startsWithTag_transactionLabel i] at htag
      cases htag
    · exact mem_allItems.mpr ⟨t, List.getElem?_mem hit, hx⟩
  · rintro ⟨n, ⟨hn, htag⟩, rfl⟩
    obtain ⟨t, ht, hnt⟩ := mem_allItems.mp hn
    obtain ⟨i, hit⟩ := List.getElem?_of_mem ht
    have he : (transactionLabel i, n) ∈ graphEdges ts :=
      mem_graphEdges.mpr ⟨i, t, hit, n, hnt, rfl⟩
    exact ⟨n, ⟨mem_graphNodes.mpr ⟨_, he, Or.inr rfl⟩,
      nodeDegree_pos_of_mem he (Or.inr rfl), htag⟩, rfl⟩

/-! ### The level loop -/

theorem mem_levelKeys {lvl : Level} {S : Itemset} :
    S ∈ levelKeys lvl ↔ ∃ c, (S, c) ∈ lvl := by
  unfold levelKeys
  simp only [Finset.mem_image, Prod.exists]
  constructor
  · rintro ⟨a, b, hab, rfl⟩
    exact ⟨b, hab⟩
  · rintro ⟨c, hc⟩
    exact ⟨S, c, hc, rfl⟩

theorem lcofiAux_empty_level (ts : List Itemset) (ms : ℚ) (fuel k : Nat)
    (acc : List Level) :
    lcofiAux ts ms (fuel + 1) k ∅ acc = some acc := by
  simp [lcofiAux]

/-- Well-formedness of a level-`j` dict: every entry's itemset has exactly `j`
items, its value is the containment count, and relative support meets the
threshold. -/
def levelOK (ts : List Itemset) (ms : ℚ) (j : Nat) (lvl : Level) : Prop :=
  ∀ S c, (S, c) ∈ lvl →
    S.card = j ∧ c = containCount S ts ∧ ms ≤ (c : ℚ) / (ts.length : ℚ)

/-- Every item of an entry of `upper` occurs in some entry of `lower`. -/
def linked (lower upper : Level) : Prop :=
  ∀ S c, (S, c) ∈ upper → ∀ x ∈ S, ∃ S2 c2, (S2, c2) ∈ lower ∧ x ∈ S2

theorem levelOK_of_count_support_candidates {ts : List Itemset} {ms : ℚ}
    {k : Nat} {cur next : Level}
    (h : count_support (generate_candidates (levelKeys cur) k) ts ms =
      some next) :
    levelOK ts ms k next := by
  intro S c hSc
  obtain ⟨hS, hc, hle⟩ := (mem_of_count_support_eq_some h S c).mp hSc
  exact ⟨generate_candidates_card hS, hc, hle⟩

theorem linked_of_count_support_candidates {ts : List Itemset} {ms : ℚ}
    {k : Nat} {cur next : Level}
    (h : count_support (generate_candidates (levelKeys cur) k) ts ms =
      some next) :
    linked cur next := by
  intro S c hSc x hx
  obtain ⟨hS, -, -⟩ := (mem_of_count_support_eq_some h S c).mp hSc
  have hxU : x ∈ itemUniverse (levelKeys cur) :=
    (mem_generate_candidates.mp hS).1 hx
  obtain ⟨I, hI, hxI⟩ := mem_itemUniverse.mp hxU
  obtain ⟨c2, hc2⟩ := mem_levelKeys.mp hI
  exact ⟨I, c2, hc2, hxI⟩

theorem itemUniverse_levelKeys_subset {ts : List Itemset} {ms : ℚ} {k : Nat}
    {cur next : Level}
    (h : count_support (generate_candidates (levelKeys cur) k) ts ms =
      some next) :
    itemUniverse (levelKeys next) ⊆ itemUniverse (levelKeys cur) := by
  intro x hx
  obtain ⟨I, hI, hxI⟩ := mem_itemUniverse.mp hx
  obtain ⟨c, hc⟩ := mem_levelKeys.mp hI
  obtain ⟨hS, -, -⟩ := (mem_of_count_support_eq_some h I c).mp hc
  exact (mem_generate_candidates.mp hS).1 hxI

/-- Loop invariant: if the accumulated levels are well-formed and the loop
enters with `acc` holding levels `1..k-1`, every level of the final output is
well-formed for its index. -/
theorem lcofiAux_levelOK {ts : List Itemset} {ms : ℚ} :
    ∀ fuel k cur acc L,
      lcofiAux ts ms fuel k cur acc = some L →
      (cur ≠ ∅ → acc.length + 1 = k) →
      (∀ i (h : i < acc.length), levelOK ts ms (i + 1) acc[i]) →
      ∀ i (h : i < L.length), levelOK ts ms (i + 1) L[i] := by
  intro fuel
  induction fuel with
  | zero =>
    intro k cur acc L hL
    cases hL
  | succ fuel ih =>
    intro k cur acc L hL hk hacc
    rw [lcofiAux] at hL
    by_cases hcur : cur = ∅
    · rw [if_pos hcur] at hL
      cases Option.some_inj.mp hL
      exact hacc
    · rw [if_neg hcur] at hL
      cases hcs : count_support (generate_candidates (levelKeys cur) k) ts
          ms with
      | none => rw [hcs] at hL; dsimp only at hL; cases hL
      | some next =>
        rw [hcs] at hL
        dsimp only at hL
        by_cases hnext : next = ∅
        · rw [if_pos hnext] at hL
          exact ih (k + 1) next acc L hL (fun h => absurd hnext h) hacc
        · rw [if_neg hnext] at hL
          refine ih (k + 1) next (acc ++ [next]) L hL ?_ ?_
          · intro _
            rw [List.length_append, List.length_singleton, hk hcur]
          · intro i hi
            rw [List.length_append, List.length_singleton] at hi
            rcases Nat.lt_or_ge i acc.length with h | h
            · rw [List.getElem_append_left h]
              exact hacc i h
            · have hieq : i = acc.length :=
                Nat.le_antisymm (Nat.lt_succ_iff.mp hi) h
              rw [List.getElem_concat_length _ _ _ hieq]
              have hkk : i + 1 = k := by rw [hieq]; exact hk hcur
              rw [hkk]
              exact levelOK_of_count_support_candidates hcs

/-- Loop invariant for the Apriori-monotonicity property: consecutive output
levels are linked, every item of a level occurring in the previous one. -/
theorem lcofiAux_linked {ts : List Itemset} {ms : ℚ} :
    ∀ fuel k cur acc L,
      lcofiAux ts ms fuel k cur acc = some L →
      (cur ≠ ∅ → ∃ acc0, acc = acc0 ++ [cur]) →
      (∀ i (h : i + 1 < acc.length), linked acc[i] acc[i + 1]) →
      ∀ i (h : i + 1 < L.length), linked L[i] L[i + 1] := by
  intro fuel
  induction fuel with
  | zero =>
    intro k cur acc L hL
    cases hL
  | succ fuel ih =>
    intro k cur acc L hL hlast hacc
    rw [lcofiAux] at hL
    by_cases hcur : cur = ∅
    · rw [if_pos hcur] at hL
      cases Option.some_inj.mp hL
      exact hacc
    · rw [if_neg hcur] at hL
      cases hcs : count_support (generate_candidates (levelKeys cur) k) ts
          ms with
      | none => rw [hcs] at hL; dsimp only at hL; cases hL
      | some next =>
        rw [hcs] at hL
        dsimp only at hL
        by_cases hnext : next = ∅
        · rw [if_pos hnext] at hL
          exact ih (k + 1) next acc L hL (fun h => absurd hnext h) hacc
        · rw [if_neg hnext] at hL
          obtain ⟨acc0, rfl⟩ := hlast hcur
          refine ih (k + 1) next ((acc0 ++ [cur]) ++ [next]) L hL
            (fun _ => ⟨acc0 ++ [cur], rfl⟩) ?_
          intro i hi
          rw [List.length_append, List.length_singleton] at hi
          rcases Nat.lt_or_ge (i + 1) (acc0 ++ [cur]).length with h | h
          · rw [List.getElem_append_left h,
              List.getElem_append_left (Nat.lt_of_succ_lt h)]
            exact hacc i h
          · have hieq : i + 1 = (acc0 ++ [cur]).length :=
              Nat.le_antisymm (Nat.lt_succ_iff.mp hi) h
            rw [List.getElem_concat_length _ _ _ hieq]
            have hi0 : i = acc0.length := by
              rw [List.length_append, List.length_singleton] at hieq
              omega
            have hlt : i < (acc0 ++ [cur]).length := by
              rw [List.length_append, List.length_singleton]
              omega
            rw [List.getElem_append_left hlt,
              List.getElem_concat_length _ _ _ hi0]
            exact linked_of_count_support_candidates hcs

theorem levelKeys_subset_of_count_support {itemsets : Finset Itemset}
    {ts : List Itemset} {ms : ℚ} {m : Level}
    (h : count_support itemsets ts ms = some m) : levelKeys m ⊆ itemsets := by
  intro S hS
  obtain ⟨c, hc⟩ := mem_levelKeys.mp hS
  exact ((mem_of_count_support_eq_some h S c).mp hc).1

/-- With fuel `j` satisfying `k + j = |V| + 4`, the loop cannot exhaust its
fuel: once `k` exceeds `|V|` the candidate set is empty and the loop halts. -/
theorem lcofiAux_isSome {ts : List Itemset} {ms : ℚ} {V : Finset String}
    (hts : ts ≠ []) :
    ∀ j k cur acc, 2 ≤ j → itemUniverse (levelKeys cur) ⊆ V →
      k + j = V.card + 4 → (lcofiAux ts ms j k cur acc).isSome := by
  intro j
  induction j with
  | zero =>
    intro k cur acc h2
    exact absurd h2 (by omega)
  | succ j ih =>
    intro k cur acc h2 hU hkj
    by_cases hcur : cur = ∅
    · subst hcur
      rw [lcofiAux_empty_level]
      rfl
    · cases hcs : count_support (generate_candidates (levelKeys cur) k) ts
          ms with
      | none =>
        rw [count_support_ne_nil hts] at hcs
        cases hcs
      | some next =>
        rw [lcofiAux, if_neg hcur, hcs]
        dsimp only
        by_cases hj : 2 ≤ j
        · exact ih (k + 1) next _ hj
            ((itemUniverse_levelKeys_subset hcs).trans hU) (by omega)
        · have hj1 : j = 1 := by omega
          subst hj1
          have hcand : generate_candidates (levelKeys cur) k = ∅ :=
            generate_candidates_empty_of_card_lt
              (Nat.lt_of_le_of_lt (Finset.card_le_card hU) (by omega))
          rw [hcand, count_support_empty] at hcs
          cases Option.some_inj.mp hcs
          rw [lcofiAux_empty_level]
          rfl

theorem itemUniverse_level1_subset {ts : List Itemset} {ms : ℚ} {l1 : Level}
    (h : count_support (single_items ts) ts ms = some l1) :
    itemUniverse (levelKeys l1) ⊆ allItems ts := by
  intro x hx
  obtain ⟨I, hI, hxI⟩ := mem_itemUniverse.mp hx
  obtain ⟨c, hc⟩ := mem_levelKeys.mp hI
  have hIs : I ∈ single_items ts :=
    ((mem_of_count_support_eq_some h I c).mp hc).1
  rw [single_items_eq] at hIs
  obtain ⟨n, hn, rfl⟩ := Finset.mem_image.mp hIs
  rw [Finset.mem_singleton] at hxI
  subst hxI
  exact (Finset.mem_filter.mp hn).1

theorem single_items_nil : single_items ([] : List Itemset) = ∅ := by
  rw [single_items_eq]
  simp [allItems]

theorem lcofi_nil (ms : ℚ) : lcofi ([] : List Itemset) ms = some [∅] := by
  have h1 : count_support (single_items []) ([] : List Itemset) ms =
      some ∅ := by
    rw [single_items_nil]
    exact count_support_empty _ _
  rw [lcofi, h1]
  dsimp only
  exact lcofiAux_empty_level _ _ _ _ _

/-- If level 1 comes back empty, `lcofi` still returns it: the output is the
one-element list holding the empty level, not the empty list. -/
theorem lcofi_level1_empty {ts : List Itemset} {ms : ℚ}
    (h : count_support (single_items ts) ts ms = some ∅) :
    lcofi ts ms = some [∅] := by
  rw [lcofi, h]
  dsimp only
  exact lcofiAux_empty_level _ _ _ _ _

/-- The fuel supplied by `lcofi` is always sufficient: mining always returns
a result (`none` is never the answer). -/
theorem lcofi_isSome (ts : List Itemset) (ms : ℚ) : (lcofi ts ms).isSome := by
  by_cases hts : ts = []
  · subst hts
    rw [lcofi_nil]
    rfl
  · rw [lcofi, count_support_ne_nil hts]
    dsimp only
    exact lcofiAux_isSome hts ((allItems ts).card + 2) 2 _ _ (by omega)
      (itemUniverse_level1_subset (count_support_ne_nil hts)) (by omega)

/-! ### Rule derivation

The repository delegates rule derivation to the external library function
`mlxtend.frequent_patterns.association_rules`; only the wrapper
`generate_association_rules` (flattening the levels and normalising counts
by `N`) is in the repository. The derivation itself is therefore modelled
from the specification. -/

/-- An association rule record with the metrics the claims mention. -/
structure Rule where
  antecedent : Itemset
  consequent : Itemset
  support : ℚ
  confidence : ℚ
  lift : ℚ
  leverage : ℚ
deriving DecidableEq

/-- Modelled from the spec: lookup of an itemset's stored support count in
the flattened frequent-itemset mapping. -/
def lookupCount (flat : List (Itemset × Nat)) (S : Itemset) : Option Nat :=
  (flat.find? (fun p => decide (p.1 = S))).map Prod.snd

/-- Modelled from the spec: `flat_itemsets.update(level)` over all levels;
a later level's binding overwrites an earlier one, so lookup scans the
reversed concatenation. -/
def flattenLevels (levels : List (List (Itemset × Nat))) :
    List (Itemset × Nat) :=
  levels.reverse.flatten

/-- Modelled from the spec (§4.5): score one antecedent/consequent split of a
frequent itemset `F`. The split is skipped (`none`) when the antecedent is
empty or improper, when a required support is missing from the flattened
mapping, when a support is zero (undefined metric), or when the confidence
`supp(F)/supp(A)` is below `min_confidence`; otherwise the rule and its
metrics are emitted. -/
def scoreRule (flat : List (Itemset × Nat)) (N : Nat) (min_confidence : ℚ)
    (F A : Itemset) : Option Rule :=
  if A = ∅ ∨ A = F then none
  else
    match lookupCount flat F, lookupCount flat A,
        lookupCount flat (F \ A) with
    | some cF, some cA, some cC =>
      if cA = 0 ∨ cC = 0 then none
      else
        let suppF : ℚ := (cF : ℚ) / (N : ℚ)
        let suppA : ℚ := (cA : ℚ) / (N : ℚ)
        let suppC : ℚ := (cC : ℚ) / (N : ℚ)
        let conf : ℚ := suppF / suppA
        if min_confidence ≤ conf then
          some ⟨A, F \ A, suppF, conf, conf / suppC, suppF - suppA * suppC⟩
        else none
    | _, _, _ => none

/-- The rules derived from the splits of one frequent itemset `F`: the
successful `scoreRule` results over all subsets of `F`. -/
def rulesFor (flat : List (Itemset × Nat)) (N : Nat) (min_confidence : ℚ)
    (F : Itemset) : Finset Rule :=
  ((F.powerset.image (scoreRule flat N min_confidence F)).filter
    (fun o => o.isSome = true)).image (fun o => o.getD ⟨∅, ∅, 0, 0, 0, 0⟩)

/-- Modelled from the spec (§4.5): derive every association rule from the
flattened levels, one candidate rule per nonempty proper subset of each
frequent itemset of size at least 2, filtered by confidence only. -/
def derive_rules (levels : List (List (Itemset × Nat))) (N : Nat)
    (min_confidence : ℚ) : Finset Rule :=
  let flat := flattenLevels levels
  ((flat.map Prod.fst).dedup.filter (fun F => decide (2 ≤ F.card))).foldr
    (fun F acc => rulesFor flat N min_confidence F ∪ acc) ∅

theorem mem_rulesFor {flat : List (Itemset × Nat)} {N : Nat} {mc : ℚ}
    {F : Itemset} {r : Rule} :
    r ∈ rulesFor flat N mc F ↔
      ∃ A ⊆ F, scoreRule flat N mc F A = some r := by
  unfold rulesFor
  constructor
  · intro h
    obtain ⟨o, ho, rfl⟩ := Finset.mem_image.mp h
    obtain ⟨ho1, ho2⟩ := Finset.mem_filter.mp ho
    obtain ⟨A, hA, rfl⟩ := Finset.mem_image.mp ho1
    obtain ⟨r, hr⟩ := Option.isSome_iff_exists.mp ho2
    refine ⟨A, Finset.mem_powerset.mp hA, ?_⟩
    rw [hr]
    rfl
  · rintro ⟨A, hA, hr⟩
    refine Finset.mem_image.mpr ⟨some r, Finset.mem_filter.mpr
      ⟨Finset.mem_image.mpr ⟨A, Finset.mem_powerset.mpr hA, hr⟩, rfl⟩, rfl⟩

theorem mem_derive_rules {levels : List (List (Itemset × Nat))} {N : Nat}
    {mc : ℚ} {r : Rule} :
    r ∈ derive_rules levels N mc ↔
      ∃ F, F ∈ ((flattenLevels levels).map Prod.fst).dedup ∧ 2 ≤ F.card ∧
        ∃ A ⊆ F, scoreRule (flattenLevels levels) N mc F A = some r := by
  unfold derive_rules
  rw [mem_foldr_union]
  constructor
  · rintro ⟨F, hF, hr⟩
    obtain ⟨hF1, hF2⟩ := List.mem_filter.mp hF
    exact ⟨F, hF1, of_decide_eq_true hF2, mem_rulesFor.mp hr⟩
  · rintro ⟨F, hF1, hF2, hr⟩
    exact ⟨F, List.mem_filter.mpr ⟨hF1, decide_eq_true hF2⟩,
      mem_rulesFor.mpr hr⟩

theorem scoreRule_eq_some {flat : List (Itemset × Nat)} {N : Nat} {mc : ℚ}
    {F A : Itemset} {r : Rule} (h : scoreRule flat N mc F A = some r) :
    ∃ cF cA cC, A ≠ ∅ ∧ A ≠ F ∧
      lookupCount flat F = some cF ∧ lookupCount flat A = some cA ∧
      lookupCount flat (F \ A) = some cC ∧ cA ≠ 0 ∧ cC ≠ 0 ∧
      mc ≤ ((cF : ℚ) / (N : ℚ)) / ((cA : ℚ) / (N : ℚ)) ∧
      r = ⟨A, F \ A, (cF : ℚ) / (N : ℚ),
        ((cF : ℚ) / (N : ℚ)) / ((cA : ℚ) / (N : ℚ)),
        (((cF : ℚ) / (N : ℚ)) / ((cA : ℚ) / (N : ℚ))) / ((cC : ℚ) / (N : ℚ)),
        (cF : ℚ) / (N : ℚ) -
          ((cA : ℚ) / (N : ℚ)) * ((cC : ℚ) / (N : ℚ))⟩ := by
  rw [scoreRule] at h
  split_ifs at h with h1
  cases hF : lookupCount flat F with
  | none => rw [hF] at h; dsimp only at h; cases h
  | some cF =>
    cases hA : lookupCount flat A with
    | none => rw [hF, hA] at h; dsimp only at h; cases h
    | some cA =>
      cases hC : lookupCount flat (F \ A) with
      | none => rw [hF, hA, hC] at h; dsimp only at h; cases h
      | some cC =>
        rw [hF, hA, hC] at h
        dsimp only at h
        split_ifs at h with h2 h3
        rw [not_or] at h2
        refine ⟨cF, cA, cC, fun he => h1 (Or.inl he), fun he => h1 (Or.inr he),
          rfl, rfl, rfl, h2.1, h2.2, h3, ?_⟩
        exact (Option.some_inj.mp h).symm

theorem scoreRule_complete {flat : List (Itemset × Nat)} {N : Nat} {mc : ℚ}
    {F A : Itemset} {cF cA cC : Nat} (hne : A ≠ ∅) (hnF : A ≠ F)
    (hF : lookupCount flat F = some cF) (hA : lookupCount flat A = some cA)
    (hC : lookupCount flat (F \ A) = some cC) (hcA : cA ≠ 0) (hcC : cC ≠ 0)
    (hconf : mc ≤ ((cF : ℚ) / (N : ℚ)) / ((cA : ℚ) / (N : ℚ))) :
    scoreRule flat N mc F A =
      some ⟨A, F \ A, (cF : ℚ) / (N : ℚ),
        ((cF : ℚ) / (N : ℚ)) / ((cA : ℚ) / (N : ℚ)),
        (((cF : ℚ) / (N : ℚ)) / ((cA : ℚ) / (N : ℚ))) / ((cC : ℚ) / (N : ℚ)),
        (cF : ℚ) / (N : ℚ) -
          ((cA : ℚ) / (N : ℚ)) * ((cC : ℚ) / (N : ℚ))⟩ := by
  rw [scoreRule, if_neg (by rintro (he | he); exacts [hne he, hnF he]),
    hF, hA, hC]
  dsimp only
  rw [if_neg (by rintro (he | he); exacts [hcA he, hcC he]), if_pos hconf]

/-- One unfolding of the level loop when the current level is non-empty. -/
theorem lcofiAux_step {ts : List Itemset} {ms : ℚ} {fuel k : Nat}
    {cur : Level} {acc : List Level} {next : Level} (hcur : cur ≠ ∅)
    (hcs : count_support (generate_candidates (levelKeys cur) k) ts ms =
      some next) :
    lcofiAux ts ms (fuel + 1) k cur acc =
      lcofiAux ts ms fuel (k + 1) next
        (if next = ∅ then acc else acc ++ [next]) := by
  rw [lcofiAux, if_neg hcur, hcs]

/-! ### Concrete data of the notebook example -/

/-- The sample transactional dataset of the notebook. -/
def exampleTransactions : List Itemset :=
  [{"A", "B", "C"}, {"A", "C"}, {"B", "C", "D"}, {"A", "C", "D"}, {"B", "C"}]

/-- The notebook's threshold `min_support = 0.6`. -/
def exampleMinSupport : ℚ := 3 / 5

/-- Expected level 1 of the example: `{C: 5, A: 3, B: 3}`. -/
def exampleLevel1 : Level := {({"C"}, 5), ({"A"}, 3), ({"B"}, 3)}

/-- Expected level 2 of the example: `{{C,A}: 3, {C,B}: 3}`. -/
def exampleLevel2 : Level := {({"C", "A"}, 3), ({"C", "B"}, 3)}

/-- Flattened example levels used to exercise rule derivation. -/
def exampleLevels : List (List (Itemset × Nat)) :=
  [[({"A"}, 3), ({"C"}, 5)], [({"A", "C"}, 3)]]

/-! ### The claims -/

/-- C1: for every mapping `P` of previous-level frequent itemsets and every
`k ≥ 2`, `generate_candidates(P, k)` returns exactly the set of all
`k`-element subsets of the universe `U` formed by the union of all items
occurring in any itemset of `P`, with no subset-frequency pruning; if `P` is
empty the result is empty, and if `U` has fewer than `k` distinct items the
result is empty without error. -/
theorem claim1_generate_candidates (P : Finset Itemset) (k : Nat)
    (hk : 2 ≤ k) :
    (∀ x, x ∈ itemUniverse P ↔ ∃ I ∈ P, x ∈ I) ∧
    (∀ S, S ∈ generate_candidates P k ↔ S ⊆ itemUniverse P ∧ S.card = k) ∧
    (P = ∅ → generate_candidates P k = ∅) ∧
    ((itemUniverse P).card < k → generate_candidates P k = ∅) := by
  refine ⟨fun x => mem_itemUniverse, fun S => mem_generate_candidates, ?_,
    generate_candidates_empty_of_card_lt⟩
  rintro rfl
  apply generate_candidates_empty_of_card_lt
  have h0 : itemUniverse (∅ : Finset Itemset) = ∅ := rfl
  rw [h0, Finset.card_empty]
  omega

theorem claim1_generate_candidates_witness :
    2 ≤ 2 ∧
      ((∀ x, x ∈ itemUniverse {({"A"} : Itemset)} ↔
          ∃ I ∈ ({({"A"} : Itemset)} : Finset Itemset), x ∈ I) ∧
        (∀ S, S ∈ generate_candidates {({"A"} : Itemset)} 2 ↔
          S ⊆ itemUniverse {({"A"} : Itemset)} ∧ S.card = 2) ∧
        (({({"A"} : Itemset)} : Finset Itemset) = ∅ →
          generate_candidates {({"A"} : Itemset)} 2 = ∅) ∧
        ((itemUniverse {({"A"} : Itemset)}).card < 2 →
          generate_candidates {({"A"} : Itemset)} 2 = ∅)) :=
  ⟨by decide, claim1_generate_candidates {({"A"} : Itemset)} 2 (by decide)⟩

/-- C2: for every non-empty transaction list `T` (with `N = |T|`) and every
candidate set `C`, `count_support(C, T, min_support)` succeeds and returns a
mapping whose keys are exactly the candidates `S ∈ C` with
`containCount S T / N ≥ min_support`, each mapped to exactly its containment
count. -/
theorem claim2_count_support (C : Finset Itemset) (ts : List Itemset)
    (ms : ℚ) (hts : ts ≠ []) :
    ∃ m, count_support C ts ms = some m ∧
      ∀ S c, (S, c) ∈ m ↔
        S ∈ C ∧ c = containCount S ts ∧
          ms ≤ (containCount S ts : ℚ) / (ts.length : ℚ) := by
  refine ⟨_, count_support_ne_nil hts, ?_⟩
  intro S c
  rw [mem_of_count_support_eq_some (count_support_ne_nil hts) S c]
  constructor
  · rintro ⟨h1, rfl, h3⟩
    exact ⟨h1, rfl, h3⟩
  · rintro ⟨h1, rfl, h3⟩
    exact ⟨h1, rfl, h3⟩

theorem claim2_count_support_witness :
    ([({"A"} : Itemset), {"B"}] : List Itemset) ≠ [] ∧
      ∃ m, count_support {({"A"} : Itemset)} [({"A"} : Itemset), {"B"}]
          (1 / 2) = some m ∧
        ∀ S c, (S, c) ∈ m ↔
          S ∈ ({({"A"} : Itemset)} : Finset Itemset) ∧
            c = containCount S [({"A"} : Itemset), {"B"}] ∧
            1 / 2 ≤ (containCount S [({"A"} : Itemset), {"B"}] : ℚ) /
              (([({"A"} : Itemset), {"B"}] : List Itemset).length : ℚ) :=
  ⟨by decide, claim2_count_support {({"A"} : Itemset)}
    [({"A"} : Itemset), {"B"}] (1 / 2) (by decide)⟩

/-- C3: for every non-empty transaction list and `min_support`, every itemset
in the `i`-th level (1-based: index `i` holds level `i+1`) of the sequence
returned by `lcofi` has exactly `i+1` items, and its stored count divided by
the transaction count meets `min_support`. -/
theorem claim3_level_sizes_and_support (ts : List Itemset) (ms : ℚ)
    (L : List Level) (hts : ts ≠ []) (hL : lcofi ts ms = some L) :
    ∀ i (h : i < L.length), ∀ S c, (S, c) ∈ L[i] →
      S.card = i + 1 ∧ ms ≤ (c : ℚ) / (ts.length : ℚ) := by
  rw [lcofi] at hL
  cases hcs : count_support (single_items ts) ts ms with
  | none => rw [hcs] at hL; cases hL
  | some l1 =>
    rw [hcs] at hL
    dsimp only at hL
    have hlev := lcofiAux_levelOK _ 2 l1 [l1] L hL (fun _ => rfl) ?_
    · intro i h S c hSc
      obtain ⟨h1, -, h3⟩ := hlev i h S c hSc
      exact ⟨h1, h3⟩
    · intro i hi
      have hi0 : i = 0 := by
        simp only [List.length_singleton] at hi
        omega
      subst hi0
      intro S c hSc
      obtain ⟨hS, hc, hle⟩ := (mem_of_count_support_eq_some hcs S c).mp hSc
      refine ⟨?_, hc, hle⟩
      rw [single_items_eq] at hS
      obtain ⟨n, -, rfl⟩ := Finset.mem_image.mp hS
      exact Finset.card_singleton n

theorem claim3_level_sizes_and_support_witness :
    (([({"A"} : Itemset)] : List Itemset) ≠ [] ∧
        lcofi [({"A"} : Itemset)] 1 = some [{({"A"}, 1)}]) ∧
      ∀ i (h : i < ([{(({"A"} : Itemset), 1)}] : List Level).length),
        ∀ S c, (S, c) ∈ ([{(({"A"} : Itemset), 1)}] : List Level)[i] →
          S.card = i + 1 ∧
            (1 : ℚ) ≤ (c : ℚ) /
              (([({"A"} : Itemset)] : List Itemset).length : ℚ) :=
  ⟨⟨by decide, by with_unfolding_all decide⟩,
    claim3_level_sizes_and_support [({"A"} : Itemset)] 1 [{(({"A"} : Itemset), 1)}]
      (by decide) (by with_unfolding_all decide)⟩

/-- C4 counterexample: on `[{A}, {B}]` with `min_support = 3/5` no single
item is frequent (level 1 is the empty mapping), yet `lcofi` does not return
the empty list of levels: it returns the one-element list `[∅]`. -/
theorem claim4_counterexample :
    count_support (single_items [({"A"} : Itemset), {"B"}])
        [({"A"} : Itemset), {"B"}] (3 / 5) = some ∅ ∧
      lcofi [({"A"} : Itemset), {"B"}] (3 / 5) ≠ some [] := by
  with_unfolding_all decide

/-- C4 amended: for every input on which no single item meets `min_support`
(level 1 is the empty mapping), `lcofi` returns the one-element list whose
only level is the empty mapping (the empty level 1 is appended
unconditionally), not the empty list of levels. -/
theorem claim4_empty_level1 (ts : List Itemset) (ms : ℚ)
    (h : count_support (single_items ts) ts ms = some ∅) :
    lcofi ts ms = some [∅] :=
  lcofi_level1_empty h

theorem claim4_empty_level1_witness :
    count_support (single_items [({"A"} : Itemset), {"B"}])
        [({"A"} : Itemset), {"B"}] (3 / 5) = some ∅ ∧
      lcofi [({"A"} : Itemset), {"B"}] (3 / 5) = some [∅] :=
  ⟨by with_unfolding_all decide,
    claim4_empty_level1 [({"A"} : Itemset), {"B"}] (3 / 5)
      (by with_unfolding_all decide)⟩

/-- C5 counterexample: for the transaction list `[{"TransactionX"}]`, the
item `TransactionX` occurs in a transaction, but the seed universe derived
from the incidence graph is empty, because the seed filter drops every node
whose label starts with the reserved prefix `"Transaction"`, including item
nodes. -/
theorem claim5_counterexample :
    allItems [({"TransactionX"} : Itemset)] = {"TransactionX"} ∧
      single_items [({"TransactionX"} : Itemset)] ≠
        (allItems [({"TransactionX"} : Itemset)]).image
          (fun n => ({n} : Itemset)) := by
  with_unfolding_all decide

/-- C5 amended: the seed universe `lcofi` derives from the bipartite
incidence graph equals the singletons over the distinct items occurring in at
least one transaction whose label does not start with `"Transaction"` —
occurring items carrying the reserved prefix are (wrongly) excluded. -/
theorem claim5_seed_universe (ts : List Itemset) :
    (∀ x, x ∈ allItems ts ↔ ∃ t ∈ ts, x ∈ t) ∧
      single_items ts =
        ((allItems ts).filter (fun n => startsWithTag n = false)).image
          (fun n => ({n} : Itemset)) :=
  ⟨fun _ => mem_allItems, single_items_eq ts⟩

/-- C6 counterexample: with an empty transaction list, mining does not
report any empty-input condition: `lcofi []` returns the ordinary value
`[∅]` (no item node exists, so the guilty division is never executed), while
a direct `count_support` call with a non-empty candidate set does fail with
the raw division-by-zero fault (modelled as `none`). -/
theorem claim6_counterexample :
    lcofi ([] : List Itemset) (3 / 5) = some [∅] ∧
      count_support {({"A"} : Itemset)} ([] : List Itemset) (3 / 5) =
        none := by
  with_unfolding_all decide

/-- C6 amended: on `N = 0`, `lcofi` neither detects nor reports an
EmptyTransactionSet condition and does not fault: the seed universe is empty,
so no division executes, and it returns `[∅]`. The division-by-zero fault is
real in `count_support` itself: any non-empty candidate set with an empty
transaction list faults. -/
theorem claim6_empty_transactions (ms : ℚ) (C : Finset Itemset)
    (hC : C.Nonempty) :
    lcofi ([] : List Itemset) ms = some [∅] ∧
      count_support C ([] : List Itemset) ms = none := by
  refine ⟨lcofi_nil ms, ?_⟩
  rw [count_support, if_pos ⟨hC, rfl⟩]

theorem claim6_empty_transactions_witness :
    ({({"A"} : Itemset)} : Finset Itemset).Nonempty ∧
      (lcofi ([] : List Itemset) (3 / 5) = some [∅] ∧
        count_support {({"A"} : Itemset)} ([] : List Itemset) (3 / 5) =
          none) :=
  ⟨by decide, claim6_empty_transactions (3 / 5) {({"A"} : Itemset)}
    (by decide)⟩

/-- C7: on the notebook's transactions with `min_support = 0.6`, `lcofi`
returns exactly two levels: level 1 maps `{C} ↦ 5`, `{A} ↦ 3`, `{B} ↦ 3`,
and level 2 maps `{C,A} ↦ 3` and `{C,B} ↦ 3`; level 3 is empty, so mining
stops after level 2. -/
theorem claim7_notebook_example :
    lcofi exampleTransactions exampleMinSupport =
      some [exampleLevel1, exampleLevel2] := by
  have h1 : count_support (single_items exampleTransactions)
      exampleTransactions exampleMinSupport = some exampleLevel1 := by
    rw [count_support_ne_nil (by decide)]
    congr 1
    with_unfolding_all decide
  have h2 : count_support (generate_candidates (levelKeys exampleLevel1) 2)
      exampleTransactions exampleMinSupport = some exampleLevel2 := by
    rw [count_support_ne_nil (by decide)]
    congr 1
    with_unfolding_all decide
  have h3 : count_support (generate_candidates (levelKeys exampleLevel2) 3)
      exampleTransactions exampleMinSupport = some ∅ := by
    rw [count_support_ne_nil (by decide)]
    congr 1
    with_unfolding_all decide
  have e1 : lcofi exampleTransactions exampleMinSupport =
      lcofiAux exampleTransactions exampleMinSupport
        ((allItems exampleTransactions).card + 2) 2 exampleLevel1
        [exampleLevel1] := by
    rw [lcofi, h1]
  rw [e1]
  have e2 : lcofiAux exampleTransactions exampleMinSupport
      ((allItems exampleTransactions).card + 2) 2 exampleLevel1
      [exampleLevel1] =
        lcofiAux exampleTransactions exampleMinSupport
          ((allItems exampleTransactions).card + 1) 3 exampleLevel2
          [exampleLevel1, exampleLevel2] := by
    refine (lcofiAux_step (by with_unfolding_all decide) h2).trans ?_
    rw [if_neg (by with_unfolding_all decide)]
    rfl
  rw [e2]
  have e3 : lcofiAux exampleTransactions exampleMinSupport
      ((allItems exampleTransactions).card + 1) 3 exampleLevel2
      [exampleLevel1, exampleLevel2] =
        lcofiAux exampleTransactions exampleMinSupport
          ((allItems exampleTransactions).card) 4 ∅
          [exampleLevel1, exampleLevel2] := by
    refine (lcofiAux_step (by with_unfolding_all decide) h3).trans ?_
    rw [if_pos rfl]
  rw [e3]
  have hc : (allItems exampleTransactions).card = 4 := by
    with_unfolding_all decide
  rw [hc]
  exact lcofiAux_empty_level _ _ _ _ _

/-- C8: in every `lcofi` output and at every level of index `≥ 2`, every
item occurring in a frequent itemset of that level also occurs in some
frequent itemset of the previous level (the candidate universe is drawn only
from the previous level's items). -/
theorem claim8_apriori_universe (ts : List Itemset) (ms : ℚ) (L : List Level)
    (hL : lcofi ts ms = some L) :
    ∀ i (h : i + 1 < L.length), ∀ S c, (S, c) ∈ L[i + 1] → ∀ x ∈ S,
      ∃ S2 c2, (S2, c2) ∈ L[i] ∧ x ∈ S2 := by
  rw [lcofi] at hL
  cases hcs : count_support (single_items ts) ts ms with
  | none => rw [hcs] at hL; cases hL
  | some l1 =>
    rw [hcs] at hL
    dsimp only at hL
    exact lcofiAux_linked _ 2 l1 [l1] L hL (fun _ => ⟨[], rfl⟩)
      (fun i hi => by
        simp only [List.length_singleton] at hi
        omega)

theorem claim8_apriori_universe_witness :
    lcofi [({"A", "B"} : Itemset)] (1 / 2) =
        some [{({"A"}, 1), ({"B"}, 1)}, {({"A", "B"}, 1)}] ∧
      ∀ i (h : i + 1 <
          ([{(({"A"} : Itemset), 1), (({"B"} : Itemset), 1)},
            {(({"A", "B"} : Itemset), 1)}] : List Level).length),
        ∀ S c, (S, c) ∈ ([{(({"A"} : Itemset), 1), (({"B"} : Itemset), 1)},
            {(({"A", "B"} : Itemset), 1)}] : List Level)[i + 1] → ∀ x ∈ S,
          ∃ S2 c2, (S2, c2) ∈ ([{(({"A"} : Itemset), 1), (({"B"} : Itemset), 1)},
            {(({"A", "B"} : Itemset), 1)}] : List Level)[i] ∧ x ∈ S2 :=
  ⟨by with_unfolding_all decide,
    claim8_apriori_universe [({"A", "B"} : Itemset)] (1 / 2)
      [{(({"A"} : Itemset), 1), (({"B"} : Itemset), 1)},
        {(({"A", "B"} : Itemset), 1)}] (by with_unfolding_all decide)⟩

/-- C10: support counting is antitone with respect to inclusion — for any
transaction list and candidates `S ⊆ S2`, the containment count accumulated
for `S2` by `count_support` is at most the one accumulated for `S`. -/
theorem claim10_support_antitone (ts : List Itemset) (S S2 : Itemset)
    (h : S ⊆ S2) : containCount S2 ts ≤ containCount S ts := by
  unfold containCount
  apply List.countP_mono_left
  intro t _ hsub
  simp only [decide_eq_true_eq] at hsub ⊢
  exact h.trans hsub

theorem claim10_support_antitone_witness :
    (({"A"} : Itemset) ⊆ {"A", "B"}) ∧
      containCount {"A", "B"} [({"A"} : Itemset), {"A", "B"}] ≤
        containCount {"A"} [({"A"} : Itemset), {"A", "B"}] :=
  ⟨by decide, claim10_support_antitone [({"A"} : Itemset), {"A", "B"}]
    {"A"} {"A", "B"} (by decide)⟩

/-- C9: every rule returned by rule derivation has confidence at least
`min_confidence`, where confidence is `supp(antecedent ∪ consequent) /
supp(antecedent)`; conversely, every antecedent/consequent split meeting only
the spec's availability, nonzero-support and confidence conditions is
returned — no lift or leverage condition restricts the output. -/
theorem claim9_rule_confidence (levels : List (List (Itemset × Nat)))
    (N : Nat) (mc : ℚ) :
    (∀ r ∈ derive_rules levels N mc,
      mc ≤ r.confidence ∧
        ∃ cF cA, lookupCount (flattenLevels levels)
            (r.antecedent ∪ r.consequent) = some cF ∧
          lookupCount (flattenLevels levels) r.antecedent = some cA ∧
          r.confidence = ((cF : ℚ) / (N : ℚ)) / ((cA : ℚ) / (N : ℚ))) ∧
    (∀ F A cF cA cC,
      F ∈ ((flattenLevels levels).map Prod.fst).dedup → 2 ≤ F.card →
      A ⊆ F → A ≠ ∅ → A ≠ F →
      lookupCount (flattenLevels levels) F = some cF →
      lookupCount (flattenLevels levels) A = some cA →
      lookupCount (flattenLevels levels) (F \ A) = some cC →
      cA ≠ 0 → cC ≠ 0 →
      mc ≤ ((cF : ℚ) / (N : ℚ)) / ((cA : ℚ) / (N : ℚ)) →
      (⟨A, F \ A, (cF : ℚ) / (N : ℚ),
        ((cF : ℚ) / (N : ℚ)) / ((cA : ℚ) / (N : ℚ)),
        (((cF : ℚ) / (N : ℚ)) / ((cA : ℚ) / (N : ℚ))) / ((cC : ℚ) / (N : ℚ)),
        (cF : ℚ) / (N : ℚ) - ((cA : ℚ) / (N : ℚ)) * ((cC : ℚ) / (N : ℚ))⟩ :
          Rule) ∈ derive_rules levels N mc) := by
  constructor
  · intro r hr
    obtain ⟨F, hF, hcard, A, hA, hscore⟩ := mem_derive_rules.mp hr
    obtain ⟨cF, cA, cC, hne, hnF, hF2, hA2, hC2, hcA, hcC, hconf, rfl⟩ :=
      scoreRule_eq_some hscore
    dsimp only
    have hun : A ∪ F \ A = F := Finset.union_sdiff_of_subset hA
    rw [hun]
    exact ⟨hconf, cF, cA, hF2, hA2, rfl⟩
  · intro F A cF cA cC hF hcard hA hne hnF hF2 hA2 hC2 hcA hcC hconf
    exact mem_derive_rules.mpr ⟨F, hF, hcard, A, hA,
      scoreRule_complete hne hnF hF2 hA2 hC2 hcA hcC hconf⟩

theorem claim9_rule_confidence_witness :
    (⟨{"A"}, ({"A", "C"} : Itemset) \ {"A"}, ((3 : Nat) : ℚ) / ((5 : Nat) : ℚ),
      (((3 : Nat) : ℚ) / ((5 : Nat) : ℚ)) / (((3 : Nat) : ℚ) / ((5 : Nat) : ℚ)),
      ((((3 : Nat) : ℚ) / ((5 : Nat) : ℚ)) / (((3 : Nat) : ℚ) / ((5 : Nat) : ℚ))) /
        (((5 : Nat) : ℚ) / ((5 : Nat) : ℚ)),
      ((3 : Nat) : ℚ) / ((5 : Nat) : ℚ) -
        (((3 : Nat) : ℚ) / ((5 : Nat) : ℚ)) * (((5 : Nat) : ℚ) / ((5 : Nat) : ℚ))⟩ :
        Rule) ∈ derive_rules exampleLevels 5 (1 / 2) :=
  (claim9_rule_confidence exampleLevels 5 (1 / 2)).2 {"A", "C"} {"A"} 3 3 5
    (by with_unfolding_all decide) (by decide) (by decide) (by decide)
    (by decide) (by with_unfolding_all decide) (by with_unfolding_all decide)
    (by with_unfolding_all decide) (by decide) (by decide)
    (by with_unfolding_all decide)

end LCOFI
